import Mathlib

/-!
Shallow embedding of the Stockings message-framing layer.

Source files embedded here:
  - Stockings/utils/MessageHeaders.py  (class MessageHeaders)
  - Stockings/utils/MessageLength.py   (class MessageLength)
  - connection.py                      (class Connection)
  - Stockings/_pollStocking.py         (class PollStocking, send path)

Bytes are modelled as natural numbers (every byte on the wire is < 256);
byte strings as List Nat.  Python bitwise operators are kept literally
(the Lean operators on Nat agree with Python's semantics on non-negative
integers).  Fallible code (Python exceptions from indexing an empty
sequence) is modelled with Option.
-/

namespace Stockings

/-- Message type tags: MessageHeaders.BYTES = 0, MessageHeaders.UNICODE = 1. -/
inductive MsgType where
  | BYTES : MsgType
  | UNICODE : MsgType
deriving DecidableEq, Repr

namespace MessageHeaders

/-- Deserialization state of a MessageHeaders instance: the class attributes
_msgLength, _completed, _shift, _type of MessageHeaders. -/
structure State where
  msgLength : Nat
  completed : Bool
  shift : Nat
  type : Option MsgType
deriving DecidableEq, Repr

/-- The initial values of the state attributes (_msgLength = 0,
_completed = False, _shift = 1, _type = None). -/
def initial : State := ⟨0, false, 1, none⟩

/-- MessageHeaders.reset: sets every state attribute back to its initial
value, regardless of the current state. -/
def State.reset (_ : State) : State := ⟨0, false, 1, none⟩

/-- MessageHeaders.getLength: returns the accumulated message length if
_completed is set, else None. -/
def State.getLength (s : State) : Option Nat :=
  if s.completed then some s.msgLength else none

/-- MessageHeaders.getType: returns _type unconditionally (None until the
first header byte has been processed). -/
def State.getType (s : State) : Option MsgType := s.type

/-- The while-loop of MessageHeaders.serialize: while length is nonzero,
append (length & 127) and shift length right by 7. -/
def serializeLoop (length : Nat) : List Nat :=
  if h : length = 0 then []
  else (length &&& 127) :: serializeLoop (length >>> 7)
decreasing_by
  simp only [Nat.shiftRight_eq_div_pow]
  exact Nat.div_lt_self (Nat.pos_of_ne_zero h) (by norm_num)

/-- The statement chars[-1] |= 128 of MessageHeaders.serialize and
MessageLength.serialize: set bit 7 on the last element of the list.
In the source the list is never empty at this point; on [] we return []
(the empty case is handled separately where it can arise). -/
def markLast : List Nat → List Nat
  | [] => []
  | [x] => [x ||| 128]
  | x :: y :: xs => x :: markLast (y :: xs)

/-- MessageHeaders.serialize: the first byte packs the type flag (64 when
the message is a bytes object) and the low 6 bits of the length; the
remaining length is emitted 7 bits per byte; the last byte gets bit 128. -/
def serialize (typ : MsgType) (length : Nat) : List Nat :=
  markLast (((if typ = MsgType.BYTES then 64 else 0) ||| (length &&& 63)) ::
    serializeLoop (length >>> 6))

/-- The for-loop of MessageHeaders.deserialize over the bytes after the
first: add shift * (char & 127) to the length; a byte with bit 128 set
completes the parse and stops; otherwise shift <<= 7.  Returns the value
returned by deserialize together with the updated state. -/
def loopDeser : State → List Nat → Bool × State
  | s, [] => (false, s)
  | s, c :: rest =>
    let s1 : State := { s with msgLength := s.msgLength + s.shift * (c &&& 127) }
    if c &&& 128 ≠ 0 then (true, { s1 with completed := true })
    else loopDeser { s1 with shift := s1.shift <<< 7 } rest

/-- MessageHeaders.deserialize: if already completed, return True at once.
If _shift is 1 this call sees the first header byte: st[0] (an IndexError,
hence none, when st is empty) carries 6 length bits, the type flag and
possibly the terminal bit; afterwards the remaining bytes go through the
loop.  Otherwise all bytes go through the loop. -/
def deserialize (s : State) (st : List Nat) : Option (Bool × State) :=
  if s.completed then some (true, s)
  else if s.shift = 1 then
    match st with
    | [] => none
    | c :: rest =>
      let s1 : State :=
        { msgLength := s.msgLength + (c &&& 63)
          completed := s.completed
          shift := s.shift <<< 6
          type := some (if c &&& 64 ≠ 0 then MsgType.BYTES else MsgType.UNICODE) }
      if c &&& 128 ≠ 0 then some (true, { s1 with completed := true })
      else some (loopDeser s1 rest)
  else some (loopDeser s st)

/-- A caller feeding successive chunks to deserialize, collecting the
boolean returned by each call and the final state.  none models a Python
exception escaping from one of the calls. -/
def feedChunks : State → List (List Nat) → Option (List Bool × State)
  | s, [] => some ([], s)
  | s, c :: cs =>
    match deserialize s c with
    | none => none
    | some (b, s1) =>
      match feedChunks s1 cs with
      | none => none
      | some (bs, s2) => some (b :: bs, s2)

/-- A caller feeding successive chunks to deserialize, keeping only the
final state. -/
def feedAll : State → List (List Nat) → Option State
  | s, [] => some s
  | s, c :: cs =>
    match deserialize s c with
    | none => none
    | some (_, s1) => feedAll s1 cs

end MessageHeaders

namespace MessageLength

/-- The while-loop of MessageLength.serialize: while length is nonzero,
append (length & 127) and shift length right by 7. -/
def serializeLoop (length : Nat) : List Nat :=
  if h : length = 0 then []
  else (length &&& 127) :: serializeLoop (length >>> 7)
decreasing_by
  simp only [Nat.shiftRight_eq_div_pow]
  exact Nat.div_lt_self (Nat.pos_of_ne_zero h) (by norm_num)

/-- MessageLength.serialize: emit the 7-bit digits of the length, then set
bit 128 on the last byte with chars[-1] |= 128.  When length is 0 the
digit list is empty and chars[-1] raises IndexError, modelled by none. -/
def serialize (length : Nat) : Option (List Nat) :=
  match serializeLoop length with
  | [] => none
  | c :: rest => some (MessageHeaders.markLast (c :: rest))

end MessageLength

namespace Connection

/-- Errors raised by the Connection API: the NotReady exception raised by
read and write before the handshake has completed, and the plain Exception
raised by _write for a message longer than _maxMsgLen. -/
inductive Err where
  | notReady : Err
  | oversize : Err
deriving DecidableEq, Repr

/-- Owner-visible state of a Connection object: the handshakeComplete and
active flags, the message-length limits, the contents of the two pipes
(inbox holds the messages the parent can read from _parentIn; outbox holds
the byte strings written to _parentOut for the worker), the partial-message
buffers, and one open/closed flag per OS resource. -/
structure State where
  handshakeComplete : Bool
  active : Bool
  maxMsgLen : Nat
  headerLen : Nat
  inbox : List (List Nat)
  outbox : List (List Nat)
  iBuffer : List Nat
  iBufferLen : Nat
  oBuffer : List Nat
  parentInOpen : Bool
  parentOutOpen : Bool
  usInOpen : Bool
  usOutOpen : Bool
  sockOpen : Bool
deriving DecidableEq, Repr

/-- The while-loop of Connection.__serializeMessageLength: base-256 digits
of the already-decremented length, least significant first. -/
def lenDigits (length : Nat) : List Nat :=
  if h : length = 0 then []
  else (length % 256) :: lenDigits (length / 256)
decreasing_by
  exact Nat.div_lt_self (Nat.pos_of_ne_zero h) (by norm_num)

/-- Connection.__serializeMessageLength: subtract one from the length
(messages of length 0 are never sent, so the valuation is shifted), emit
base-256 digits, and right-pad with zero bytes to _headerLen with ljust. -/
def serializeMessageLength (headerLen : Nat) (length : Nat) : List Nat :=
  let st := lenDigits (length - 1)
  st ++ List.replicate (headerLen - st.length) 0

/-- Connection._read: if the connection is active and _parentIn has data,
dequeue and return one message; otherwise return None.  The pair is the
returned value and the state after the call. -/
def internalRead (s : State) : Option (List Nat) × State :=
  if s.active ∧ ¬ s.inbox.isEmpty then
    (some (s.inbox.headD []), { s with inbox := s.inbox.tail })
  else (none, s)

/-- Connection._write: raise when the message exceeds _maxMsgLen; if the
connection is active and the message is nonempty, enqueue the serialized
length header followed by the message onto _parentOut; otherwise do
nothing. -/
def internalWrite (s : State) (msg : List Nat) : Except Err Unit × State :=
  if msg.length > s.maxMsgLen then (Except.error Err.oversize, s)
  else if s.active ∧ msg.length ≠ 0 then
    (Except.ok (),
      { s with outbox :=
          s.outbox ++ [serializeMessageLength s.headerLen msg.length ++ msg] })
  else (Except.ok (), s)

/-- Connection.read: raise NotReady until the handshake has completed, then
return _read() (postRead is the identity in the base class). -/
def read (s : State) : Except Err (Option (List Nat)) × State :=
  if ¬ s.handshakeComplete then (Except.error Err.notReady, s)
  else (Except.ok (internalRead s).1, (internalRead s).2)

/-- Connection.write: raise NotReady until the handshake has completed,
then call _write on preWrite(*args) (preWrite returns its first argument
in the base class). -/
def write (s : State) (msg : List Nat) : Except Err Unit × State :=
  if ¬ s.handshakeComplete then (Except.error Err.notReady, s)
  else internalWrite s msg

/-- Connection.__signalClose: clear the active flag, close _parentOut,
_usOut, _usIn and the socket, and touch nothing else; in particular
_parentIn stays open and the inbox keeps its contents. -/
def signalClose (s : State) : State :=
  { s with
    active := false
    parentOutOpen := false
    usOutOpen := false
    usInOpen := false
    sockOpen := false }

/-- State touched by Connection.__sendMessage: the outbound buffer
_oBuffer, the queue of serialized messages the parent wrote to _parentOut
(read by the worker from _usIn), and the bytes accepted so far by the
socket, in order (the wire stream seen by the peer). -/
structure SendState where
  oBuffer : List Nat
  outQueue : List (List Nat)
  sent : List Nat
deriving DecidableEq, Repr

/-- Second half of Connection.__sendMessage: if _oBuffer has any bytes,
sock.send accepts some number of them (k caps it; k = 0 models EAGAIN)
and _oBuffer drops the bytes sent, which append to the wire stream. -/
def sendFrom (k : Nat) (s : SendState) : SendState :=
  if s.oBuffer.isEmpty then s
  else
    { s with
      sent := s.sent ++ s.oBuffer.take (min k s.oBuffer.length)
      oBuffer := s.oBuffer.drop (min k s.oBuffer.length) }

/-- Connection.__sendMessage: when _oBuffer is empty and _usIn.poll() is
true, dequeue the next serialized message into _oBuffer; then attempt to
send from _oBuffer.  The poller registration for writability is omitted:
it affects scheduling only, not the byte stream.
PollStocking._pollSendMessage wraps the same logic. -/
def sendMessage (k : Nat) (s : SendState) : SendState :=
  if s.oBuffer.isEmpty ∧ ¬ s.outQueue.isEmpty then
    sendFrom k
      { s with oBuffer := s.outQueue.headD [], outQueue := s.outQueue.tail }
  else sendFrom k s

/-- A run of the worker's send path: one sendMessage call per readiness
event, the k-th event letting the socket accept up to ks[k] bytes. -/
def runSends (ks : List Nat) (s : SendState) : SendState :=
  ks.foldl (fun st k => sendMessage k st) s

/-- Invariant of the send path over an initial queue msgs: some first i
messages have left the queue; the wire stream followed by the pending
buffer is exactly their concatenation, in order; and the pending buffer,
when nonempty, is a suffix of the single message dequeued last. -/
def SendInv (msgs : List (List Nat)) (s : SendState) : Prop :=
  ∃ i, i ≤ msgs.length ∧ s.outQueue = msgs.drop i ∧
    s.sent ++ s.oBuffer = (msgs.take i).flatten ∧
    (s.oBuffer ≠ [] → s.oBuffer <:+ msgs.getD (i - 1) [] ∧ 1 ≤ i)

end Connection

namespace MessageHeaders

/-! Arithmetic readings of the Python bitwise operators. -/

lemma and63_eq_mod (n : Nat) : n &&& 63 = n % 64 := by
  have h := Nat.and_pow_two_sub_one_eq_mod n 6
  norm_num at h
  exact h

lemma and127_eq_mod (n : Nat) : n &&& 127 = n % 128 := by
  have h := Nat.and_pow_two_sub_one_eq_mod n 7
  norm_num at h
  exact h

lemma shiftRight6_eq_div (n : Nat) : n >>> 6 = n / 64 := by
  have h := Nat.shiftRight_eq_div_pow n 6
  norm_num at h
  exact h

lemma shiftRight7_eq_div (n : Nat) : n >>> 7 = n / 128 := by
  have h := Nat.shiftRight_eq_div_pow n 7
  norm_num at h
  exact h

lemma shiftLeft7_eq_mul (n : Nat) : n <<< 7 = n * 128 := by
  have h := Nat.shiftLeft_eq n 7
  norm_num at h
  exact h

lemma byte_lt128_and128 : ∀ c < 128, c &&& 128 = 0 := by decide

lemma byte_lor128_and127 : ∀ c < 128, (c ||| 128) &&& 127 = c := by decide

lemma byte_lor128_and128 : ∀ c < 128, (c ||| 128) &&& 128 = 128 := by decide

lemma byte_lt128_and127 : ∀ c < 128, c &&& 127 = c := by decide

/-- Facts about the first header byte (if typ then 64 else 0) ||| m for
m < 64, with and without the terminal bit. -/
lemma firstByte_facts : ∀ m < 64, ∀ b : Bool,
    ((if b then 64 else 0) ||| m) < 128 ∧
    ((if b then 64 else 0) ||| m) &&& 63 = m ∧
    ((((if b then 64 else 0) ||| m) &&& 64 ≠ 0) ↔ b = true) ∧
    ((if b then 64 else 0) ||| m) &&& 128 = 0 ∧
    (((if b then 64 else 0) ||| m) ||| 128) &&& 63 = m ∧
    (((((if b then 64 else 0) ||| m) ||| 128) &&& 64 ≠ 0) ↔ b = true) ∧
    (((if b then 64 else 0) ||| m) ||| 128) &&& 128 ≠ 0 := by decide

/-! Structure of serializeLoop and markLast. -/

lemma serializeLoop_zero : serializeLoop 0 = [] := by
  simp [serializeLoop]

lemma serializeLoop_pos {M : Nat} (h : M ≠ 0) :
    serializeLoop M = (M &&& 127) :: serializeLoop (M >>> 7) := by
  rw [serializeLoop]
  simp [h]

lemma serializeLoop_lt128 (M : Nat) : ∀ c ∈ serializeLoop M, c < 128 := by
  induction M using Nat.strong_induction_on with
  | _ M ih =>
    by_cases h : M = 0
    · subst h; rw [serializeLoop_zero]; intro c hc; cases hc
    · rw [serializeLoop_pos h]
      intro c hc
      rcases List.mem_cons.mp hc with h1 | h2
      · subst h1
        rw [and127_eq_mod]
        exact Nat.mod_lt _ (by norm_num)
      · exact ih (M >>> 7)
          (by rw [shiftRight7_eq_div]
              exact Nat.div_lt_self (Nat.pos_of_ne_zero h) (by norm_num)) c h2

lemma serializeLoop_ne_nil {M : Nat} (h : M ≠ 0) : serializeLoop M ≠ [] := by
  rw [serializeLoop_pos h]
  exact List.cons_ne_nil _ _

lemma markLast_cons {x : Nat} {l : List Nat} (h : l ≠ []) :
    markLast (x :: l) = x :: markLast l := by
  cases l with
  | nil => exact absurd rfl h
  | cons y ys => rfl

/-- Running the deserialize loop over the marked output of serializeLoop
always completes, adding shift * M to the accumulated length and leaving
the type untouched. -/
lemma loopDeser_serializeLoop (M : Nat) (hM : M ≠ 0) :
    ∀ s : State, ∃ sh,
      loopDeser s (markLast (serializeLoop M)) =
        (true, ⟨s.msgLength + s.shift * M, true, sh, s.type⟩) := by
  induction M using Nat.strong_induction_on with
  | _ M ih =>
    intro s
    have hMlt : M % 128 < 128 := Nat.mod_lt _ (by norm_num)
    by_cases h7 : M >>> 7 = 0
    · -- single 7-bit digit: M < 128
      have hMsmall : M < 128 := by
        rw [shiftRight7_eq_div] at h7
        omega
      have hM127 : M &&& 127 = M := byte_lt128_and127 M hMsmall
      rw [serializeLoop_pos hM, h7, serializeLoop_zero, hM127]
      refine ⟨s.shift, ?_⟩
      show loopDeser s [M ||| 128] = _
      rw [loopDeser]
      rw [byte_lor128_and127 M hMsmall]
      simp only [byte_lor128_and128 M hMsmall]
      norm_num
    · -- leading digit followed by the digits of M >>> 7
      have hrec : M >>> 7 < M := by
        rw [shiftRight7_eq_div]
        exact Nat.div_lt_self (Nat.pos_of_ne_zero hM) (by norm_num)
      rw [serializeLoop_pos hM,
          markLast_cons (serializeLoop_ne_nil h7)]
      have hand : M &&& 127 = M % 128 := and127_eq_mod M
      rw [loopDeser]
      rw [byte_lt128_and127 (M &&& 127) (by rw [hand]; exact hMlt)]
      simp only [byte_lt128_and128 (M &&& 127) (by rw [hand]; exact hMlt)]
      norm_num
      obtain ⟨sh, hsh⟩ := ih (M >>> 7) hrec h7
        ⟨s.msgLength + s.shift * (M &&& 127), s.completed, s.shift <<< 7, s.type⟩
      refine ⟨sh, ?_⟩
      rw [hsh]
      simp only [Prod.mk.injEq, State.mk.injEq, true_and, and_true]
      rw [hand, shiftLeft7_eq_mul, shiftRight7_eq_div]
      conv_rhs => rw [← Nat.mod_add_div M 128]
      ring

/-- Evaluation of deserialize on the initial state applied to a nonempty
byte list: the first byte goes through the first-byte branch. -/
lemma deserialize_initial_cons (c : Nat) (rest : List Nat) :
    deserialize initial (c :: rest) =
      if c &&& 128 ≠ 0 then
        some (true, ⟨0 + (c &&& 63), true, 1 <<< 6,
          some (if c &&& 64 ≠ 0 then MsgType.BYTES else MsgType.UNICODE)⟩)
      else
        some (loopDeser ⟨0 + (c &&& 63), false, 1 <<< 6,
          some (if c &&& 64 ≠ 0 then MsgType.BYTES else MsgType.UNICODE)⟩ rest) := by
  rfl

/-- Evaluation of deserialize once the parse has completed: every further
call returns True and leaves the state alone. -/
lemma deserialize_completed {s : State} (h : s.completed = true)
    (st : List Nat) : deserialize s st = some (true, s) := by
  rw [deserialize.eq_def, if_pos h]

/-- Evaluation of deserialize past the first byte: all input goes through
the loop. -/
lemma deserialize_loop_branch {s : State} (h1 : s.completed = false)
    (h2 : s.shift ≠ 1) (st : List Nat) :
    deserialize s st = some (loopDeser s st) := by
  rw [deserialize.eq_def, if_neg (by simp [h1]), if_neg h2]

/-- Evaluation of deserialize on the first byte of the header when the
input is empty: st[0] raises IndexError. -/
lemma deserialize_first_nil {s : State} (h1 : s.completed = false)
    (h2 : s.shift = 1) : deserialize s [] = none := by
  rw [deserialize.eq_def, if_neg (by simp [h1]), if_pos h2]

/-- Evaluation of deserialize on the first byte of the header. -/
lemma deserialize_first_cons {s : State} (h1 : s.completed = false)
    (h2 : s.shift = 1) (c : Nat) (rest : List Nat) :
    deserialize s (c :: rest) =
      if c &&& 128 ≠ 0 then
        some (true, ⟨s.msgLength + (c &&& 63), true, s.shift <<< 6,
          some (if c &&& 64 ≠ 0 then MsgType.BYTES else MsgType.UNICODE)⟩)
      else
        some (loopDeser ⟨s.msgLength + (c &&& 63), s.completed, s.shift <<< 6,
          some (if c &&& 64 ≠ 0 then MsgType.BYTES else MsgType.UNICODE)⟩ rest) := by
  rw [deserialize.eq_def, if_neg (by simp [h1]), if_pos h2]

/-- Deserializing the serialized header for a type flag tb and any length L
from the initial state completes in one call and recovers both values. -/
lemma deserialize_serialize_aux (tb : Bool) (L : Nat) :
    ∃ sh, deserialize initial
        (markLast (((if tb then 64 else 0) ||| (L &&& 63)) :: serializeLoop (L >>> 6))) =
      some (true, ⟨L, true, sh, some (if tb then MsgType.BYTES else MsgType.UNICODE)⟩) := by
  have hm : L % 64 < 64 := Nat.mod_lt _ (by norm_num)
  obtain ⟨hlt, hand63, hand64, hand128, hlor63, hlor64, hlor128⟩ :=
    firstByte_facts (L % 64) hm tb
  have htyp : ∀ c : Nat, ((c &&& 64 ≠ 0) ↔ tb = true) →
      (if c &&& 64 ≠ 0 then MsgType.BYTES else MsgType.UNICODE) =
        (if tb then MsgType.BYTES else MsgType.UNICODE) := by
    intro c hc
    cases tb with
    | true => simp only [iff_true] at hc; simp [hc]
    | false =>
      have : ¬ c &&& 64 ≠ 0 := by simp [hc]
      simp [this]
  rw [and63_eq_mod]
  by_cases hL : L >>> 6 = 0
  · -- short header: one byte carries everything
    have hLsmall : L < 64 := by
      rw [shiftRight6_eq_div] at hL
      omega
    have hLmod : L % 64 = L := Nat.mod_eq_of_lt hLsmall
    refine ⟨1 <<< 6, ?_⟩
    rw [hL, serializeLoop_zero]
    show deserialize initial [((if tb then 64 else 0) ||| L % 64) ||| 128] = _
    rw [deserialize_initial_cons, if_pos hlor128, hlor63, htyp _ hlor64,
        Nat.zero_add, hLmod]
  · -- long header: first byte then the 7-bit digits of L >>> 6
    rw [markLast_cons (serializeLoop_ne_nil hL)]
    rw [deserialize_initial_cons, if_neg (by simp [hand128]), hand63,
        htyp _ hand64, Nat.zero_add]
    obtain ⟨sh, hsh⟩ := loopDeser_serializeLoop (L >>> 6) hL
      ⟨L % 64, false, 1 <<< 6,
        some (if tb then MsgType.BYTES else MsgType.UNICODE)⟩
    refine ⟨sh, ?_⟩
    rw [hsh]
    have hLrec : L % 64 + 1 <<< 6 * (L >>> 6) = L := by
      rw [shiftRight6_eq_div, Nat.shiftLeft_eq]
      norm_num
      omega
    simp only [hLrec]

/-- Deserializing serialize typ length from a fresh state recovers the
length and the type in a single completing call. -/
lemma deserialize_serialize (t : MsgType) (L : Nat) :
    ∃ sh, deserialize initial (serialize t L) =
      some (true, ⟨L, true, sh, some t⟩) := by
  cases t with
  | BYTES =>
    obtain ⟨sh, hsh⟩ := deserialize_serialize_aux true L
    refine ⟨sh, ?_⟩
    rw [serialize]
    simpa using hsh
  | UNICODE =>
    obtain ⟨sh, hsh⟩ := deserialize_serialize_aux false L
    refine ⟨sh, ?_⟩
    rw [serialize]
    simpa using hsh

/-! Incremental behaviour of the deserialize loop. -/

/-- A run of the loop that does not complete preserves the completed flag
and the type, and never shrinks the shift register. -/
lemma loopDeser_false_facts : ∀ (l : List Nat) (s s' : State),
    loopDeser s l = (false, s') →
    s'.completed = s.completed ∧ s'.type = s.type ∧ s.shift ≤ s'.shift := by
  intro l
  induction l with
  | nil =>
    intro s s' h
    simp only [loopDeser, Prod.mk.injEq] at h
    obtain ⟨-, rfl⟩ := h
    exact ⟨rfl, rfl, le_refl _⟩
  | cons c rest ih =>
    intro s s' h
    simp only [loopDeser] at h
    by_cases hc : c &&& 128 ≠ 0
    · rw [if_pos hc] at h
      simp at h
    · rw [if_neg hc] at h
      obtain ⟨h1, h2, h3⟩ := ih _ _ h
      refine ⟨h1, h2, ?_⟩
      calc s.shift ≤ s.shift <<< 7 := by
              rw [shiftLeft7_eq_mul]
              exact Nat.le_mul_of_pos_right _ (by norm_num)
        _ ≤ s'.shift := h3

/-- Splitting the byte list fed to the loop: a run that does not complete
continues exactly where it stopped. -/
lemma loopDeser_append_false : ∀ (a : List Nat) (b : List Nat) (s s' : State),
    loopDeser s a = (false, s') →
    loopDeser s (a ++ b) = loopDeser s' b := by
  intro a
  induction a with
  | nil =>
    intro b s s' h
    simp only [loopDeser, Prod.mk.injEq] at h
    obtain ⟨-, rfl⟩ := h
    rfl
  | cons c rest ih =>
    intro b s s' h
    simp only [loopDeser] at h
    by_cases hc : c &&& 128 ≠ 0
    · rw [if_pos hc] at h
      simp at h
    · rw [if_neg hc] at h
      show loopDeser s (c :: (rest ++ b)) = _
      simp only [loopDeser]
      rw [if_neg hc]
      exact ih b _ s' h

/-- A run of the loop that completes is insensitive to extra trailing
bytes: everything after the terminal byte is ignored. -/
lemma loopDeser_append_true : ∀ (a : List Nat) (b : List Nat) (s s' : State),
    loopDeser s a = (true, s') →
    loopDeser s (a ++ b) = (true, s') := by
  intro a
  induction a with
  | nil =>
    intro b s s' h
    simp only [loopDeser, Prod.mk.injEq] at h
    simp at h
  | cons c rest ih =>
    intro b s s' h
    simp only [loopDeser] at h
    by_cases hc : c &&& 128 ≠ 0
    · rw [if_pos hc] at h
      show loopDeser s (c :: (rest ++ b)) = _
      simp only [loopDeser]
      rw [if_pos hc]
      exact h
    · rw [if_neg hc] at h
      show loopDeser s (c :: (rest ++ b)) = _
      simp only [loopDeser]
      rw [if_neg hc]
      exact ih b _ s' h

/-- A loop run over bytes none of which carries the terminal bit returns
False. -/
lemma loopDeser_no_terminal : ∀ (l : List Nat) (s : State),
    (∀ c ∈ l, c &&& 128 = 0) → (loopDeser s l).1 = false := by
  intro l
  induction l with
  | nil => intro s _; rfl
  | cons c rest ih =>
    intro s h
    simp only [loopDeser]
    rw [if_neg (by simpa using h c (List.mem_cons_self c rest))]
    exact ih _ fun d hd => h d (List.mem_cons_of_mem c hd)

/-- An incomplete deserialize call leaves the state incomplete, with the
shift register strictly past its initial value of 1. -/
lemma deserialize_false_facts {s s' : State} {a : List Nat}
    (hsh : 1 ≤ s.shift) (h : deserialize s a = some (false, s')) :
    s'.completed = false ∧ 1 < s'.shift := by
  by_cases hcomp : s.completed
  · rw [deserialize_completed hcomp] at h
    simp at h
  · have hcompf : s.completed = false := by simpa using hcomp
    by_cases h1 : s.shift = 1
    · match a with
      | [] =>
        rw [deserialize_first_nil hcompf h1] at h
        simp at h
      | c :: rest =>
        rw [deserialize_first_cons hcompf h1] at h
        by_cases hc : c &&& 128 ≠ 0
        · rw [if_pos hc] at h
          simp at h
        · rw [if_neg hc] at h
          have h' := Option.some.inj h
          obtain ⟨hcf, htf, hsf⟩ := loopDeser_false_facts rest _ s' h'
          refine ⟨by rw [hcf]; exact hcompf, ?_⟩
          have hle : s.shift <<< 6 ≤ s'.shift := hsf
          rw [h1] at hle
          have h64 : (1 : Nat) <<< 6 = 64 := rfl
          rw [h64] at hle
          omega
    · rw [deserialize_loop_branch hcompf h1] at h
      have h' := Option.some.inj h
      obtain ⟨hcf, htf, hsf⟩ := loopDeser_false_facts a s s' h'
      refine ⟨by rw [hcf]; exact hcompf, ?_⟩
      omega

/-- Splitting the byte list fed to deserialize: a call that returns False
consumed everything, and a later call picks up exactly where it left off. -/
lemma deserialize_append_false {s s' : State} {a : List Nat} (b : List Nat)
    (hsh : 1 ≤ s.shift) (h : deserialize s a = some (false, s')) :
    deserialize s (a ++ b) = deserialize s' b := by
  obtain ⟨hcf, hshf⟩ := deserialize_false_facts hsh h
  have hsne : s'.shift ≠ 1 := by omega
  by_cases hcomp : s.completed
  · rw [deserialize_completed hcomp] at h
    simp at h
  · have hcompf : s.completed = false := by simpa using hcomp
    by_cases h1 : s.shift = 1
    · match a with
      | [] =>
        rw [deserialize_first_nil hcompf h1] at h
        simp at h
      | c :: rest =>
        rw [deserialize_first_cons hcompf h1] at h
        by_cases hc : c &&& 128 ≠ 0
        · rw [if_pos hc] at h
          simp at h
        · rw [if_neg hc] at h
          have h' := Option.some.inj h
          show deserialize s (c :: (rest ++ b)) = _
          rw [deserialize_first_cons hcompf h1, if_neg hc,
              loopDeser_append_false rest b _ s' h',
              deserialize_loop_branch hcf hsne b]
    · rw [deserialize_loop_branch hcompf h1] at h
      have h' := Option.some.inj h
      rw [deserialize_loop_branch hcompf h1 (a ++ b),
          loopDeser_append_false a b s s' h',
          deserialize_loop_branch hcf hsne b]

/-- Feeding only terminal-free bytes cannot complete the parse: the call
returns False (the first byte must be present if none was seen yet). -/
lemma deserialize_no_terminal {s : State} {a : List Nat}
    (hterm : ∀ c ∈ a, c &&& 128 = 0) (hcomp : s.completed = false)
    (hne : s.shift = 1 → a ≠ []) :
    ∃ s', deserialize s a = some (false, s') := by
  by_cases h1 : s.shift = 1
  · match a, hne h1 with
    | c :: rest, _ =>
      rw [deserialize_first_cons hcomp h1,
          if_neg (by simpa using hterm c (List.mem_cons_self c rest))]
      rcases hres : loopDeser ⟨s.msgLength + (c &&& 63), s.completed,
          s.shift <<< 6,
          some (if c &&& 64 ≠ 0 then MsgType.BYTES else MsgType.UNICODE)⟩ rest
        with ⟨b1, s1⟩
      have hb1 : b1 = false := by
        have hfalse := loopDeser_no_terminal rest
          ⟨s.msgLength + (c &&& 63), s.completed, s.shift <<< 6,
            some (if c &&& 64 ≠ 0 then MsgType.BYTES else MsgType.UNICODE)⟩
          (fun d hd => hterm d (List.mem_cons_of_mem c hd))
        rw [hres] at hfalse
        exact hfalse
      exact ⟨s1, by rw [hb1]⟩
  · rw [deserialize_loop_branch hcomp h1]
    rcases hres : loopDeser s a with ⟨b1, s1⟩
    have hb1 : b1 = false := by
      have := loopDeser_no_terminal a s hterm
      rw [hres] at this
      exact this
    exact ⟨s1, by rw [hb1]⟩

/-- markLast rewrites the last element of a nonempty list, leaving the
rest in place. -/
lemma markLast_eq : ∀ (l : List Nat) (h : l ≠ []),
    markLast l = l.dropLast ++ [l.getLast h ||| 128] := by
  intro l
  induction l with
  | nil => intro h; exact absurd rfl h
  | cons x xs ih =>
    intro h
    cases xs with
    | nil => rfl
    | cons y ys =>
      show markLast (x :: y :: ys) = _
      rw [markLast, ih (List.cons_ne_nil y ys), List.dropLast_cons₂,
          List.getLast_cons (List.cons_ne_nil y ys)]
      rfl

/-- Every byte emitted by serialize before marking is below 128. -/
lemma serialize_bytes_lt (t : MsgType) (L : Nat) :
    ∀ c ∈ ((if t = MsgType.BYTES then 64 else 0) ||| (L &&& 63)) ::
        serializeLoop (L >>> 6), c < 128 := by
  have hfst : ((if t = MsgType.BYTES then 64 else 0) ||| (L &&& 63)) < 128 := by
    rw [and63_eq_mod]
    have hm : L % 64 < 64 := Nat.mod_lt _ (by norm_num)
    cases t with
    | BYTES =>
      simpa using (firstByte_facts (L % 64) hm true).1
    | UNICODE =>
      simpa using (firstByte_facts (L % 64) hm false).1
  intro c hc
  rcases List.mem_cons.mp hc with h1 | h2
  · exact h1 ▸ hfst
  · exact serializeLoop_lt128 _ c h2

/-- The serialized header splits into terminal-free bytes followed by a
single byte carrying the terminal bit. -/
lemma serialize_split (t : MsgType) (L : Nat) :
    ∃ I z, serialize t L = I ++ [z] ∧ (∀ c ∈ I, c &&& 128 = 0) ∧
      z &&& 128 ≠ 0 := by
  have hne : (((if t = MsgType.BYTES then 64 else 0) ||| (L &&& 63)) ::
      serializeLoop (L >>> 6)) ≠ [] := List.cons_ne_nil _ _
  refine ⟨_, _, markLast_eq _ hne, ?_, ?_⟩
  · intro c hc
    exact byte_lt128_and128 c
      (serialize_bytes_lt t L c (List.dropLast_subset _ hc))
  · have hlast := serialize_bytes_lt t L _ (List.getLast_mem hne)
    rw [byte_lor128_and128 _ hlast]
    norm_num

/-- Feeding a sequence of nonempty terminal-free chunks: every call
returns False, and the parse continues exactly as if the bytes had
arrived in one piece. -/
lemma feed_chain : ∀ (css : List (List Nat)) (s : State),
    (∀ c ∈ css, c ≠ []) →
    (∀ b ∈ css.flatten, b &&& 128 = 0) →
    s.completed = false → 1 ≤ s.shift →
    ∃ s', feedChunks s css = some (List.replicate css.length false, s') ∧
      s'.completed = false ∧ 1 ≤ s'.shift ∧
      ∀ rest, deserialize s (css.flatten ++ rest) = deserialize s' rest := by
  intro css
  induction css with
  | nil =>
    intro s hne hterm hcomp hsh
    exact ⟨s, rfl, hcomp, hsh, fun rest => rfl⟩
  | cons c cs ih =>
    intro s hne hterm hcomp hsh
    have hcterm : ∀ b ∈ c, b &&& 128 = 0 := fun b hb =>
      hterm b (by simp [hb])
    obtain ⟨s1, hs1⟩ := deserialize_no_terminal hcterm hcomp
      (fun _ => hne c (List.mem_cons_self c cs))
    obtain ⟨hs1c, hs1sh⟩ := deserialize_false_facts hsh hs1
    obtain ⟨s', hfeed, hc', hsh', hchain⟩ := ih s1
      (fun d hd => hne d (List.mem_cons_of_mem c hd))
      (fun b hb => hterm b (by simp [hb]))
      hs1c (by omega)
    refine ⟨s', ?_, hc', hsh', ?_⟩
    · show feedChunks s (c :: cs) = _
      rw [feedChunks, hs1]
      simp [hfeed, List.replicate_succ]
    · intro rest
      show deserialize s ((c :: cs).flatten ++ rest) = _
      have : (c :: cs).flatten = c ++ cs.flatten := by simp
      rw [this, List.append_assoc,
          deserialize_append_false (cs.flatten ++ rest) hsh hs1,
          hchain rest]

/-- Composition of feedChunks over an appended final chunk. -/
lemma feedChunks_append_single : ∀ (xs : List (List Nat)) (c : List Nat)
    (s s1 : State) (bs : List Bool),
    feedChunks s xs = some (bs, s1) →
    ∀ (b2 : Bool) (s2 : State), deserialize s1 c = some (b2, s2) →
    feedChunks s (xs ++ [c]) = some (bs ++ [b2], s2) := by
  intro xs
  induction xs with
  | nil =>
    intro c s s1 bs hx b2 s2 hc
    simp only [feedChunks, Option.some.injEq, Prod.mk.injEq] at hx
    obtain ⟨rfl, rfl⟩ := hx
    simp only [List.nil_append]
    rw [feedChunks, hc]
    rfl
  | cons x rest ih =>
    intro c s s1 bs hx b2 s2 hc
    rw [feedChunks] at hx
    match hd : deserialize s x with
    | none =>
      rw [hd] at hx
      simp at hx
    | some (bx, sx) =>
      rw [hd] at hx
      simp only at hx
      match hf : feedChunks sx rest with
      | none =>
        rw [hf] at hx
        simp at hx
      | some (bsr, s1r) =>
        rw [hf] at hx
        simp only [Option.some.injEq, Prod.mk.injEq] at hx
        obtain ⟨rfl, hx2⟩ := hx
        show feedChunks s (x :: (rest ++ [c])) = _
        rw [feedChunks, hd]
        have hrec := ih c sx s1 bsr (by rw [hf, hx2]) b2 s2 hc
        simp [hrec]

/-- The deserialize loop never changes the type and never shrinks the
shift register, whatever it returns. -/
lemma loopDeser_mono : ∀ (l : List Nat) (s : State),
    (loopDeser s l).2.type = s.type ∧ s.shift ≤ (loopDeser s l).2.shift := by
  intro l
  induction l with
  | nil => intro s; exact ⟨rfl, le_refl _⟩
  | cons c rest ih =>
    intro s
    simp only [loopDeser]
    by_cases hc : c &&& 128 ≠ 0
    · rw [if_pos hc]
      exact ⟨rfl, le_refl _⟩
    · rw [if_neg hc]
      obtain ⟨h1, h2⟩ := ih
        ⟨s.msgLength + s.shift * (c &&& 127), s.completed, s.shift <<< 7, s.type⟩
      refine ⟨h1, le_trans ?_ h2⟩
      show s.shift ≤ s.shift <<< 7
      rw [shiftLeft7_eq_mul]
      exact Nat.le_mul_of_pos_right _ (by norm_num)

/-- One deserialize call preserves the invariant tying the type attribute
to the shift register: _type is None exactly while _shift is still 1. -/
lemma deserialize_inv {s s' : State} {a : List Nat} {b : Bool}
    (h : deserialize s a = some (b, s'))
    (hinv : (s.type = none ↔ s.shift = 1) ∧ 1 ≤ s.shift) :
    (s'.type = none ↔ s'.shift = 1) ∧ 1 ≤ s'.shift := by
  by_cases hcomp : s.completed
  · rw [deserialize_completed hcomp] at h
    obtain ⟨-, rfl⟩ : (true, s) = (b, s') := Option.some.inj h
    exact hinv
  · have hcompf : s.completed = false := by simpa using hcomp
    by_cases h1 : s.shift = 1
    · match a with
      | [] =>
        rw [deserialize_first_nil hcompf h1] at h
        simp at h
      | c :: rest =>
        rw [deserialize_first_cons hcompf h1] at h
        have h64 : s.shift <<< 6 = 64 := by
          rw [h1]
          rfl
        by_cases hc : c &&& 128 ≠ 0
        · rw [if_pos hc] at h
          obtain ⟨-, rfl⟩ := Option.some.inj h
          simp [h64]
        · rw [if_neg hc] at h
          have h' := Option.some.inj h
          have hsnd : (loopDeser ⟨s.msgLength + (c &&& 63), s.completed,
              s.shift <<< 6,
              some (if c &&& 64 ≠ 0 then MsgType.BYTES else MsgType.UNICODE)⟩
              rest).2 = s' := by rw [h']
          obtain ⟨hty, hsh⟩ := loopDeser_mono rest
            ⟨s.msgLength + (c &&& 63), s.completed, s.shift <<< 6,
              some (if c &&& 64 ≠ 0 then MsgType.BYTES else MsgType.UNICODE)⟩
          rw [hsnd] at hty hsh
          have hty' : s'.type =
              some (if c &&& 64 ≠ 0 then MsgType.BYTES else MsgType.UNICODE) :=
            hty
          have hsh' : s.shift <<< 6 ≤ s'.shift := hsh
          rw [h64] at hsh'
          constructor
          · rw [hty']
            constructor
            · intro hn
              simp at hn
            · intro hn
              omega
          · omega
    · have hs1 : 1 < s.shift := lt_of_le_of_ne hinv.2 (fun hh => h1 hh.symm)
      rw [deserialize_loop_branch hcompf h1] at h
      have h' := Option.some.inj h
      have hsnd : (loopDeser s a).2 = s' := by rw [h']
      obtain ⟨hty, hsh⟩ := loopDeser_mono a s
      rw [hsnd] at hty hsh
      have hne : s.type ≠ none := fun hn => h1 (hinv.1.mp hn)
      constructor
      · rw [hty]
        constructor
        · intro hn
          exact absurd hn hne
        · intro hn
          omega
      · omega

/-- The type/shift invariant holds after any sequence of deserialize
calls. -/
lemma feedAll_inv : ∀ (css : List (List Nat)) (s s' : State),
    feedAll s css = some s' →
    ((s.type = none ↔ s.shift = 1) ∧ 1 ≤ s.shift) →
    (s'.type = none ↔ s'.shift = 1) ∧ 1 ≤ s'.shift := by
  intro css
  induction css with
  | nil =>
    intro s s' h hinv
    obtain rfl : s = s' := Option.some.inj h
    exact hinv
  | cons c cs ih =>
    intro s s' h hinv
    rw [feedAll] at h
    match hd : deserialize s c with
    | none =>
      rw [hd] at h
      simp at h
    | some (b, s1) =>
      rw [hd] at h
      exact ih s1 s' h (deserialize_inv hd hinv)

/-! Byte-level structure of the serialized header (positions and bits). -/

lemma markLast_length : ∀ l : List Nat, (markLast l).length = l.length
  | [] => rfl
  | [_] => rfl
  | x :: y :: ys => by
    rw [markLast_cons (List.cons_ne_nil y ys)]
    simp only [List.length_cons, markLast_length (y :: ys)]

lemma markLast_getD_of_lt : ∀ (l : List Nat) (i : Nat), i + 1 < l.length →
    (markLast l).getD i 0 = l.getD i 0
  | [], i, h => by simp at h
  | [_], i, h => by simp at h
  | x :: y :: ys, 0, h => by
    rw [markLast_cons (List.cons_ne_nil y ys)]
    rfl
  | x :: y :: ys, i + 1, h => by
    rw [markLast_cons (List.cons_ne_nil y ys), List.getD_cons_succ,
        List.getD_cons_succ]
    exact markLast_getD_of_lt (y :: ys) i (by simpa using h)

lemma markLast_getD_last : ∀ (l : List Nat), l ≠ [] →
    (markLast l).getD (l.length - 1) 0 = l.getD (l.length - 1) 0 ||| 128
  | [], h => absurd rfl h
  | [_], _ => rfl
  | x :: y :: ys, _ => by
    have hlen : (x :: y :: ys).length - 1 = (y :: ys).length - 1 + 1 := by
      simp
    rw [markLast_cons (List.cons_ne_nil y ys), hlen, List.getD_cons_succ,
        List.getD_cons_succ]
    exact markLast_getD_last (y :: ys) (List.cons_ne_nil y ys)

lemma serializeLoop_getD (M : Nat) : ∀ i, i < (serializeLoop M).length →
    (serializeLoop M).getD i 0 = (M >>> (7 * i)) &&& 127 := by
  induction M using Nat.strong_induction_on with
  | _ M ih =>
    intro i hi
    by_cases h : M = 0
    · rw [h, serializeLoop_zero] at hi
      simp at hi
    · rw [serializeLoop_pos h] at hi ⊢
      match i with
      | 0 =>
        simp only [List.getD_cons_zero, Nat.mul_zero, Nat.shiftRight_zero]
      | i + 1 =>
        rw [List.getD_cons_succ]
        have hrec : M >>> 7 < M := by
          rw [shiftRight7_eq_div]
          exact Nat.div_lt_self (Nat.pos_of_ne_zero h) (by norm_num)
        rw [ih (M >>> 7) hrec i (by simpa using hi), ← Nat.shiftRight_add]
        congr 1
        ring

lemma serializeLoop_nil_iff (M : Nat) : serializeLoop M = [] ↔ M = 0 := by
  constructor
  · intro h
    by_contra hM
    rw [serializeLoop_pos hM] at h
    simp at h
  · intro h
    rw [h, serializeLoop_zero]

/-- An in-range getD value is an element of the list. -/
lemma getD_mem_of_lt {l : List Nat} {i : Nat} (h : i < l.length) :
    l.getD i 0 ∈ l := by
  rw [List.getD_eq_getElem?_getD, List.getElem?_eq_getElem h]
  exact List.getElem_mem h

/-- Bit-level facts about the first serialized byte, with the type flag as
a Prop on MsgType rather than Bool. -/
lemma firstByte_serialize_facts (t : MsgType) (L : Nat) :
    ((if t = MsgType.BYTES then 64 else 0) ||| (L &&& 63)) &&& 63 = L % 64 ∧
    ((((if t = MsgType.BYTES then 64 else 0) ||| (L &&& 63)) &&& 64 ≠ 0) ↔
      t = MsgType.BYTES) ∧
    ((if t = MsgType.BYTES then 64 else 0) ||| (L &&& 63)) &&& 128 = 0 ∧
    (((if t = MsgType.BYTES then 64 else 0) ||| (L &&& 63)) ||| 128) &&& 63 =
      L % 64 ∧
    (((((if t = MsgType.BYTES then 64 else 0) ||| (L &&& 63)) ||| 128) &&& 64
      ≠ 0) ↔ t = MsgType.BYTES) ∧
    ((((if t = MsgType.BYTES then 64 else 0) ||| (L &&& 63)) ||| 128) &&& 128
      ≠ 0) := by
  have hm : L % 64 < 64 := Nat.mod_lt _ (by norm_num)
  rw [and63_eq_mod L]
  cases t with
  | BYTES =>
    obtain ⟨h1, h2, h3, h4, h5, h6, h7⟩ := firstByte_facts (L % 64) hm true
    exact ⟨h2, Iff.intro (fun _ => rfl) (fun _ => h3.mpr rfl), h4, h5,
      Iff.intro (fun _ => rfl) (fun _ => h6.mpr rfl), h7⟩
  | UNICODE =>
    obtain ⟨h1, h2, h3, h4, h5, h6, h7⟩ := firstByte_facts (L % 64) hm false
    exact ⟨h2, Iff.intro (fun hl => nomatch (h3.mp hl)) (fun hh => nomatch hh),
      h4, h5,
      Iff.intro (fun hl => nomatch (h6.mp hl)) (fun hh => nomatch hh), h7⟩

end MessageHeaders

namespace MessageLength

lemma mlLoop_zero : serializeLoop 0 = [] := by
  simp [serializeLoop]

lemma mlLoop_pos {M : Nat} (h : M ≠ 0) :
    serializeLoop M = (M &&& 127) :: serializeLoop (M >>> 7) := by
  rw [serializeLoop]
  simp [h]

end MessageLength

namespace Connection

/-- The socket-send half of __sendMessage preserves the invariant: it only
moves a front segment of the single pending buffer onto the wire. -/
lemma sendFrom_inv (msgs : List (List Nat)) (k : Nat) (s : SendState)
    (h : SendInv msgs s) : SendInv msgs (sendFrom k s) := by
  obtain ⟨i, hile, hq, hsent, hsuf⟩ := h
  rw [sendFrom]
  by_cases hbe : s.oBuffer.isEmpty
  · rw [if_pos hbe]
    exact ⟨i, hile, hq, hsent, hsuf⟩
  · rw [if_neg hbe]
    have hobne : s.oBuffer ≠ [] := fun hh => hbe (by rw [hh]; rfl)
    obtain ⟨hsfx, hi1⟩ := hsuf hobne
    refine ⟨i, hile, hq, ?_, ?_⟩
    · show s.sent ++ s.oBuffer.take _ ++ s.oBuffer.drop _ = _
      rw [List.append_assoc, List.take_append_drop]
      exact hsent
    · intro hne
      exact ⟨(List.drop_suffix _ _).trans hsfx, hi1⟩

/-- Invariant preservation: one __sendMessage call keeps the send-path
invariant, for any number of bytes the socket accepts. -/
lemma sendInv_step (msgs : List (List Nat)) (k : Nat) (s : SendState)
    (h : SendInv msgs s) : SendInv msgs (sendMessage k s) := by
  obtain ⟨i, hile, hq, hsent, hsuf⟩ := h
  rw [sendMessage]
  by_cases hdeq : s.oBuffer.isEmpty ∧ ¬ s.outQueue.isEmpty
  · rw [if_pos hdeq]
    apply sendFrom_inv
    have hob : s.oBuffer = [] := List.isEmpty_iff.mp hdeq.1
    have hqne : s.outQueue ≠ [] := by
      intro hqq
      exact hdeq.2 (by rw [hqq]; rfl)
    have hilt : i < msgs.length := by
      rcases Nat.lt_or_ge i msgs.length with hlt | hge
      · exact hlt
      · exact absurd (by rw [hq]; exact List.drop_eq_nil_iff.mpr hge) hqne
    have hdropc : msgs.drop i = msgs[i] :: msgs.drop (i + 1) :=
      List.drop_eq_getElem_cons hilt
    have hhead : s.outQueue.headD [] = msgs[i] := by
      rw [hq, hdropc]
      rfl
    have htail : s.outQueue.tail = msgs.drop (i + 1) := by
      rw [hq, List.tail_drop]
    have hgetD : msgs.getD i [] = msgs[i] := by
      simp [List.getD_eq_getElem?_getD, List.getElem?_eq_getElem hilt]
    have hsent0 : s.sent = (msgs.take i).flatten := by
      rw [hob, List.append_nil] at hsent
      exact hsent
    have htake : (msgs.take (i + 1)).flatten =
        (msgs.take i).flatten ++ msgs[i] := by
      rw [List.take_succ, List.flatten_append, List.getElem?_eq_getElem hilt]
      simp
    refine ⟨i + 1, by omega, htail, ?_, ?_⟩
    · show s.sent ++ s.outQueue.headD [] = _
      rw [hhead, hsent0, htake]
    · intro hne
      refine ⟨?_, by omega⟩
      show s.outQueue.headD [] <:+ msgs.getD (i + 1 - 1) []
      rw [Nat.add_sub_cancel, hgetD, hhead]
  · rw [if_neg hdeq]
    exact sendFrom_inv msgs k s ⟨i, hile, hq, hsent, hsuf⟩

/-- The invariant is preserved by any run of the send path. -/
lemma sendInv_run (msgs : List (List Nat)) (ks : List Nat) :
    ∀ s, SendInv msgs s → SendInv msgs (runSends ks s) := by
  induction ks with
  | nil => intro s h; exact h
  | cons k ks ih =>
    intro s h
    exact ih _ (sendInv_step msgs k s h)

/-- The invariant holds at worker start: empty buffer, full queue, nothing
on the wire. -/
lemma sendInv_init (msgs : List (List Nat)) :
    SendInv msgs ⟨[], msgs, []⟩ :=
  ⟨0, Nat.zero_le _, rfl, rfl, fun hh => absurd rfl hh⟩

end Connection

namespace MessageHeaders

/-- C1: for every length in [0, 2^32) and both type tags, feeding the
byte sequence produced by MessageHeaders.serialize(type, length) to
MessageHeaders.deserialize on a freshly-initialised (or reset) instance
completes the parse in one call and yields getLength() == length and
getType() == the same type tag (the interval includes the bit-width
transition lengths 63, 64, 8191, 8192). -/
theorem c1_header_roundtrip (t : MsgType) (L : Nat) (hL : L < 2 ^ 32) :
    (∀ s0 : State, s0.reset = initial) ∧
    ∃ s : State,
      deserialize initial (serialize t L) = some (true, s) ∧
      s.getLength = some L ∧ s.getType = some t := by
  obtain ⟨sh, hsh⟩ := deserialize_serialize t L
  exact ⟨fun s0 => rfl, ⟨L, true, sh, some t⟩, hsh, rfl, rfl⟩

/-- Witness for C1 at the boundary length 8192. -/
theorem c1_header_roundtrip_witness :
    8192 < 2 ^ 32 ∧
    ((∀ s0 : State, s0.reset = initial) ∧
      ∃ s : State,
        deserialize initial (serialize MsgType.BYTES 8192) = some (true, s) ∧
        s.getLength = some 8192 ∧ s.getType = some MsgType.BYTES) :=
  ⟨by norm_num, c1_header_roundtrip MsgType.BYTES 8192 (by norm_num)⟩

/-- C2: splitting a serialized header into any ordered sequence of
nonempty chunks and feeding them to deserialize on a fresh instance,
every call before the one consuming the terminal byte returns False, the
call consuming it returns True, and the final state carries the same
getLength() and getType() as feeding the whole header in a single call
(indeed, the states are equal). -/
theorem c2_incremental_feed (t : MsgType) (L : Nat) (css : List (List Nat))
    (hne : ∀ c ∈ css, c ≠ [])
    (hsplit : css.flatten = serialize t L) :
    ∃ s : State,
      feedChunks initial css =
        some (List.replicate (css.length - 1) false ++ [true], s) ∧
      deserialize initial (serialize t L) = some (true, s) ∧
      s.getLength = some L ∧ s.getType = some t := by
  obtain ⟨I, z, hIz, hInt, hzt⟩ := serialize_split t L
  have hHne : serialize t L ≠ [] := by
    rw [hIz]
    simp
  have hcssne : css ≠ [] := by
    intro hcs
    rw [hcs] at hsplit
    exact hHne hsplit.symm
  have hcss := List.dropLast_concat_getLast hcssne
  have hcnne : css.getLast hcssne ≠ [] := hne _ (List.getLast_mem hcssne)
  have hdsfl : (css.dropLast).flatten ++ css.getLast hcssne = serialize t L := by
    rw [← hsplit]
    conv_rhs => rw [← hcss]
    rw [List.flatten_append]
    simp
  have hflat : (css.dropLast).flatten ++ css.getLast hcssne = I ++ [z] := by
    rw [hdsfl, hIz]
  have hcn2 := List.dropLast_concat_getLast hcnne
  have hflat2 : ((css.dropLast).flatten ++ (css.getLast hcssne).dropLast) ++
      [(css.getLast hcssne).getLast hcnne] = I ++ [z] := by
    rw [List.append_assoc, hcn2]
    exact hflat
  obtain ⟨hpre, hlast⟩ := List.append_inj' hflat2 rfl
  have hdster : ∀ b ∈ (css.dropLast).flatten, b &&& 128 = 0 := by
    intro b hb
    exact hInt b (hpre ▸ List.mem_append_left _ hb)
  have hdsne : ∀ c ∈ css.dropLast, c ≠ [] := fun c hc =>
    hne c (List.dropLast_subset css hc)
  obtain ⟨smid, hfeedds, hsc, hss, hchain⟩ :=
    feed_chain css.dropLast initial hdsne hdster rfl (le_refl 1)
  obtain ⟨sh, hser⟩ := deserialize_serialize t L
  have hfchain := hchain (css.getLast hcssne)
  rw [hdsfl, hser] at hfchain
  have hfeed := feedChunks_append_single css.dropLast (css.getLast hcssne)
    initial smid _ hfeedds true _ hfchain.symm
  rw [hcss, List.length_dropLast] at hfeed
  exact ⟨⟨L, true, sh, some t⟩, hfeed, hser, rfl, rfl⟩

/-- Concrete evaluation of serialize at (BYTES, 8192), unfolding the
well-founded recursion of the digit loop. -/
lemma serialize_bytes_8192 : serialize MsgType.BYTES 8192 = [64, 0, 129] := by
  rw [serialize,
      serializeLoop_pos (by decide : (8192 : Nat) >>> 6 ≠ 0),
      serializeLoop_pos (by decide : (8192 : Nat) >>> 6 >>> 7 ≠ 0),
      (by decide : (8192 : Nat) >>> 6 >>> 7 >>> 7 = 0),
      serializeLoop_zero]
  decide

/-- Witness for C2: the three-byte header of (BYTES, 8192) split into a
one-byte chunk followed by a two-byte chunk. -/
theorem c2_incremental_feed_witness :
    (∀ c ∈ [[64], [0, 129]], c ≠ []) ∧
    ([[64], [0, 129]] : List (List Nat)).flatten =
      serialize MsgType.BYTES 8192 ∧
    ∃ s : State,
      feedChunks initial [[64], [0, 129]] =
        some (List.replicate (([[64], [0, 129]] : List (List Nat)).length - 1)
          false ++ [true], s) ∧
      deserialize initial (serialize MsgType.BYTES 8192) = some (true, s) ∧
      s.getLength = some 8192 ∧ s.getType = some MsgType.BYTES :=
  ⟨by decide, by rw [serialize_bytes_8192]; decide,
    c2_incremental_feed MsgType.BYTES 8192 [[64], [0, 129]]
      (by decide) (by rw [serialize_bytes_8192]; decide)⟩

/-- C6 counterexample: feeding the single byte 0x00 (a first header byte
without the terminal bit) leaves the parse incomplete, yet getType()
already returns a non-None value, refuting the claim that getType() is
defined only when the completed flag is true. -/
theorem c6_counterexample :
    deserialize initial [0] =
      some (false, ⟨0, false, 64, some MsgType.UNICODE⟩) ∧
    State.getType ⟨0, false, 64, some MsgType.UNICODE⟩ ≠ none ∧
    (⟨0, false, 64, some MsgType.UNICODE⟩ : State).completed = false := by
  refine ⟨rfl, ?_, rfl⟩
  simp [State.getType]

/-- C6 (amended): after any sequence of deserialize calls on a fresh
instance, getLength() is non-None exactly when the completed flag is
true, while getType() is non-None exactly once the first header byte has
been consumed (the shift register moved past its initial value 1), which
can happen before the parse completes. -/
theorem c6_accessor_definedness (css : List (List Nat)) (s : State)
    (h : feedAll initial css = some s) :
    (s.getLength ≠ none ↔ s.completed = true) ∧
    (s.getType ≠ none ↔ s.shift ≠ 1) := by
  obtain ⟨hiff, hpos⟩ := feedAll_inv css initial s h
    ⟨Iff.intro (fun _ => rfl) (fun _ => rfl), le_refl 1⟩
  constructor
  · cases hcomp : s.completed <;> simp [State.getLength, hcomp]
  · have hgt : s.getType = s.type := rfl
    rw [hgt]
    exact not_congr hiff

/-- C7: serialize emits at least one byte; the first byte carries the low
6 bits of the length and the type bit, and carries the terminal bit 0x80
exactly when no further bytes are needed (length < 64); each successive
byte carries the next 7 bits of the right-shifted length; and the
terminal bit is set on the last emitted byte and on no earlier byte. -/
theorem c7_header_bit_layout (t : MsgType) (L : Nat) :
    serialize t L ≠ [] ∧
    (serialize t L).getD 0 0 &&& 63 = L % 64 ∧
    (((serialize t L).getD 0 0 &&& 64 ≠ 0) ↔ t = MsgType.BYTES) ∧
    (((serialize t L).getD 0 0 &&& 128 ≠ 0) ↔ L < 64) ∧
    (∀ i, 1 ≤ i → i < (serialize t L).length →
      (serialize t L).getD i 0 &&& 127 = L >>> (6 + 7 * (i - 1)) % 128) ∧
    (∀ i, i < (serialize t L).length →
      (((serialize t L).getD i 0 &&& 128 ≠ 0) ↔
        i = (serialize t L).length - 1)) := by
  have hser : serialize t L = markLast
      (((if t = MsgType.BYTES then 64 else 0) ||| (L &&& 63)) ::
        serializeLoop (L >>> 6)) := rfl
  have hune : (((if t = MsgType.BYTES then 64 else 0) ||| (L &&& 63)) ::
      serializeLoop (L >>> 6)) ≠ [] := List.cons_ne_nil _ _
  have hulen : (serialize t L).length =
      (serializeLoop (L >>> 6)).length + 1 := by
    rw [hser, markLast_length]
    simp
  have hbytes := serialize_bytes_lt t L
  obtain ⟨hf63, hf64, hf128, hl63, hl64, hl128⟩ := firstByte_serialize_facts t L
  have h64iff : L < 64 ↔ L >>> 6 = 0 := by
    rw [shiftRight6_eq_div]
    omega
  have hlen1 : (serialize t L).length = 1 ↔ L < 64 := by
    rw [hulen, h64iff]
    constructor
    · intro hh
      exact (serializeLoop_nil_iff _).mp
        (List.length_eq_zero.mp (by omega))
    · intro hh
      rw [(serializeLoop_nil_iff _).mpr hh]
      rfl
  have hg0 : (serialize t L).getD 0 0 =
      if L < 64 then ((if t = MsgType.BYTES then 64 else 0) ||| (L &&& 63)) ||| 128
      else (if t = MsgType.BYTES then 64 else 0) ||| (L &&& 63) := by
    by_cases hL : L < 64
    · rw [if_pos hL]
      have hloopnil := (serializeLoop_nil_iff (L >>> 6)).mpr (h64iff.mp hL)
      rw [hser, hloopnil]
      rfl
    · rw [if_neg hL]
      have hlen2 : 2 ≤ (serialize t L).length := by
        have hne1 : (serialize t L).length ≠ 1 := fun hh => hL (hlen1.mp hh)
        omega
      rw [hser]
      have := markLast_getD_of_lt
        ((((if t = MsgType.BYTES then 64 else 0) ||| (L &&& 63)) ::
          serializeLoop (L >>> 6))) 0 (by rw [← markLast_length, ← hser]; omega)
      rw [this]
      rfl
  refine ⟨?_, ?_, ?_, ?_, ?_, ?_⟩
  · intro hh
    have := hulen
    rw [hh] at this
    simp at this
  · rw [hg0]
    by_cases hL : L < 64
    · rw [if_pos hL]
      exact hl63
    · rw [if_neg hL]
      exact hf63
  · rw [hg0]
    by_cases hL : L < 64
    · rw [if_pos hL]
      exact hl64
    · rw [if_neg hL]
      exact hf64
  · rw [hg0]
    by_cases hL : L < 64
    · rw [if_pos hL]
      exact Iff.intro (fun _ => hL) (fun _ => hl128)
    · rw [if_neg hL]
      exact Iff.intro (fun hc => absurd hf128 hc) (fun hc => absurd hc hL)
  · intro i h1 hi
    obtain ⟨j, rfl⟩ : ∃ j, i = j + 1 := ⟨i - 1, by omega⟩
    have hju : j < (serializeLoop (L >>> 6)).length := by omega
    have hchunk : (((if t = MsgType.BYTES then 64 else 0) ||| (L &&& 63)) ::
        serializeLoop (L >>> 6)).getD (j + 1) 0 =
        L >>> (6 + 7 * j) &&& 127 := by
      rw [List.getD_cons_succ, serializeLoop_getD (L >>> 6) j hju,
        ← Nat.shiftRight_add]
    have hlt : L >>> (6 + 7 * j) &&& 127 < 128 := by
      rw [and127_eq_mod]
      exact Nat.mod_lt _ (by norm_num)
    have hj10 : j + 1 - 1 = j := by omega
    by_cases hlast : j + 1 + 1 < (serialize t L).length
    · have hlast' : j + 1 + 1 <
          ((((if t = MsgType.BYTES then 64 else 0) ||| (L &&& 63)) ::
            serializeLoop (L >>> 6))).length := by
        rw [← markLast_length, ← hser]
        exact hlast
      rw [hser, markLast_getD_of_lt _ (j + 1) hlast', hchunk,
        byte_lt128_and127 _ hlt, hj10, and127_eq_mod]
    · have hj1 : j + 1 =
          ((((if t = MsgType.BYTES then 64 else 0) ||| (L &&& 63)) ::
            serializeLoop (L >>> 6))).length - 1 := by
        rw [← markLast_length, ← hser]
        omega
      rw [hser, hj1, markLast_getD_last _ hune, ← hj1, hchunk,
        byte_lor128_and127 _ hlt, hj10, and127_eq_mod]
  · intro i hi
    by_cases hlast : i = (serialize t L).length - 1
    · have hiu : i =
          ((((if t = MsgType.BYTES then 64 else 0) ||| (L &&& 63)) ::
            serializeLoop (L >>> 6))).length - 1 := by
        rw [← markLast_length, ← hser]
        exact hlast
      have hval : (((if t = MsgType.BYTES then 64 else 0) ||| (L &&& 63)) ::
          serializeLoop (L >>> 6)).getD
          (((((if t = MsgType.BYTES then 64 else 0) ||| (L &&& 63)) ::
            serializeLoop (L >>> 6))).length - 1) 0 < 128 :=
        hbytes _ (getD_mem_of_lt (by simp))
      rw [hser, hiu, markLast_getD_last _ hune, byte_lor128_and128 _ hval]
      exact Iff.intro (fun _ => by rw [markLast_length]) (fun _ => by norm_num)
    · have hi1 : i + 1 <
          ((((if t = MsgType.BYTES then 64 else 0) ||| (L &&& 63)) ::
            serializeLoop (L >>> 6))).length := by
        rw [← markLast_length, ← hser]
        omega
      have hval : (((if t = MsgType.BYTES then 64 else 0) ||| (L &&& 63)) ::
          serializeLoop (L >>> 6)).getD i 0 < 128 :=
        hbytes _ (getD_mem_of_lt (by omega))
      rw [hser, markLast_getD_of_lt _ i hi1, byte_lt128_and128 _ hval]
      exact Iff.intro (fun hc => absurd rfl hc) (fun hc => absurd hc hlast)

/-- Witness for C7 at (BYTES, 8192): the second byte carries the next 7
bits of the shifted length, and the terminal bit sits on the third (last)
byte. -/
theorem c7_header_bit_layout_witness :
    (1 ≤ 1 ∧ 1 < (serialize MsgType.BYTES 8192).length ∧
      (serialize MsgType.BYTES 8192).getD 1 0 &&& 127 =
        8192 >>> (6 + 7 * (1 - 1)) % 128) ∧
    (2 < (serialize MsgType.BYTES 8192).length ∧
      (((serialize MsgType.BYTES 8192).getD 2 0 &&& 128 ≠ 0) ↔
        2 = (serialize MsgType.BYTES 8192).length - 1)) := by
  have hlen : (serialize MsgType.BYTES 8192).length = 3 := by
    rw [serialize_bytes_8192]
    rfl
  refine ⟨⟨le_refl 1, by omega, ?_⟩, ⟨by omega, ?_⟩⟩
  · exact (c7_header_bit_layout MsgType.BYTES 8192).2.2.2.2.1 1
      (le_refl 1) (by omega)
  · exact (c7_header_bit_layout MsgType.BYTES 8192).2.2.2.2.2 2 (by omega)

/-- Witness for C6 (amended) after feeding the single byte 0x00. -/
theorem c6_accessor_definedness_witness :
    feedAll initial [[0]] = some ⟨0, false, 64, some MsgType.UNICODE⟩ ∧
    ((State.getLength ⟨0, false, 64, some MsgType.UNICODE⟩ ≠ none ↔
        (⟨0, false, 64, some MsgType.UNICODE⟩ : State).completed = true) ∧
      (State.getType ⟨0, false, 64, some MsgType.UNICODE⟩ ≠ none ↔
        (⟨0, false, 64, some MsgType.UNICODE⟩ : State).shift ≠ 1)) :=
  ⟨rfl, c6_accessor_definedness [[0]] _ rfl⟩

end MessageHeaders

namespace MessageLength

/-- C9: MessageLength.serialize is undefined at length 0 (chars[-1] on an
empty list raises IndexError), while for every length at least 1 it
returns a byte sequence of at least one byte. -/
theorem c9_zero_length_unserializable :
    serialize 0 = none ∧
    ∀ L, 1 ≤ L → ∃ bs, serialize L = some bs ∧ 1 ≤ bs.length := by
  constructor
  · rw [serialize, mlLoop_zero]
  · intro L hL
    have hne : L ≠ 0 := by omega
    rw [serialize, mlLoop_pos hne]
    refine ⟨MessageHeaders.markLast ((L &&& 127) :: serializeLoop (L >>> 7)),
      rfl, ?_⟩
    rw [MessageHeaders.markLast_length]
    simp

/-- Witness for C9 at length 300. -/
theorem c9_zero_length_unserializable_witness :
    serialize 0 = none ∧ 1 ≤ 300 ∧
    ∃ bs, serialize 300 = some bs ∧ 1 ≤ bs.length :=
  ⟨c9_zero_length_unserializable.1, by norm_num,
    c9_zero_length_unserializable.2 300 (by norm_num)⟩

end MessageLength

namespace Connection

/-- C3: over any run of the worker's send path, at most one message
occupies the outbound buffer (it is always a suffix of the message
dequeued last, and a new message is dequeued only when the buffer is
empty), the buffer drains front-first, and the byte stream handed to the
socket plus what is still pending is exactly the concatenation of the
enqueued messages in order; once everything is drained the wire stream
is that concatenation. -/
theorem c3_send_order (msgs : List (List Nat)) (ks : List Nat) :
    SendInv msgs (runSends ks ⟨[], msgs, []⟩) ∧
    (runSends ks ⟨[], msgs, []⟩).sent ++ (runSends ks ⟨[], msgs, []⟩).oBuffer
        ++ ((runSends ks ⟨[], msgs, []⟩).outQueue).flatten = msgs.flatten ∧
    ((runSends ks ⟨[], msgs, []⟩).oBuffer = [] →
      (runSends ks ⟨[], msgs, []⟩).outQueue = [] →
      (runSends ks ⟨[], msgs, []⟩).sent = msgs.flatten) := by
  have hinv := sendInv_run msgs ks _ (sendInv_init msgs)
  refine ⟨hinv, ?_, ?_⟩
  · obtain ⟨i, hile, hq, hsent, hsuf⟩ := hinv
    rw [hq, hsent, ← List.flatten_append, List.take_append_drop]
  · intro hob hqe
    obtain ⟨i, hile, hq, hsent, hsuf⟩ := hinv
    have hdnil : msgs.drop i = [] := by
      rw [← hq]
      exact hqe
    have hge : msgs.length ≤ i := List.drop_eq_nil_iff.mp hdnil
    rw [hob, List.append_nil] at hsent
    rw [hsent, List.take_of_length_le hge]

/-- Witness for C3: two messages, two send events of five bytes each. -/
theorem c3_send_order_witness :
    SendInv [[1], [2, 3]] (runSends [5, 5] ⟨[], [[1], [2, 3]], []⟩) ∧
    (runSends [5, 5] ⟨[], [[1], [2, 3]], []⟩).sent ++
        (runSends [5, 5] ⟨[], [[1], [2, 3]], []⟩).oBuffer ++
        ((runSends [5, 5] ⟨[], [[1], [2, 3]], []⟩).outQueue).flatten =
      ([[1], [2, 3]] : List (List Nat)).flatten ∧
    ((runSends [5, 5] ⟨[], [[1], [2, 3]], []⟩).oBuffer = [] →
      (runSends [5, 5] ⟨[], [[1], [2, 3]], []⟩).outQueue = [] →
      (runSends [5, 5] ⟨[], [[1], [2, 3]], []⟩).sent =
        ([[1], [2, 3]] : List (List Nat)).flatten) :=
  c3_send_order [[1], [2, 3]] [5, 5]

/-- C4: while the handshake-complete flag is unset, both read() and
write(message) raise NotReady synchronously and leave the connection
state entirely unchanged: nothing is dequeued, enqueued or buffered. -/
theorem c4_pre_handshake_gating (s : State) (msg : List Nat)
    (h : s.handshakeComplete = false) :
    read s = (Except.error Err.notReady, s) ∧
    write s msg = (Except.error Err.notReady, s) := by
  constructor
  · rw [read, if_pos (by rw [h]; simp)]
  · rw [write, if_pos (by rw [h]; simp)]

/-- Witness for C4 on a concrete pre-handshake connection state. -/
theorem c4_pre_handshake_gating_witness :
    read ⟨false, true, 65536, 2, [[7]], [], [], 0, [], true, true, true,
        true, true⟩ =
      (Except.error Err.notReady,
        ⟨false, true, 65536, 2, [[7]], [], [], 0, [], true, true, true,
          true, true⟩) ∧
    write ⟨false, true, 65536, 2, [[7]], [], [], 0, [], true, true, true,
        true, true⟩ [1, 2] =
      (Except.error Err.notReady,
        ⟨false, true, 65536, 2, [[7]], [], [], 0, [], true, true, true,
          true, true⟩) :=
  c4_pre_handshake_gating _ [1, 2] rfl

/-- C5: _write raises synchronously on a message longer than _maxMsgLen,
leaving the whole state (in particular the queued outbound data)
unchanged and enqueuing nothing; a message within the limit raises no
such error. -/
theorem c5_oversize_write (s : State) (msg : List Nat) :
    (s.maxMsgLen < msg.length →
      internalWrite s msg = (Except.error Err.oversize, s)) ∧
    (msg.length ≤ s.maxMsgLen →
      (internalWrite s msg).1 = Except.ok ()) := by
  constructor
  · intro h
    rw [internalWrite, if_pos h]
  · intro h
    rw [internalWrite, if_neg (by omega : ¬ msg.length > s.maxMsgLen)]
    by_cases hh : s.active ∧ msg.length ≠ 0
    · rw [if_pos hh]
    · rw [if_neg hh]

/-- Witness for C5: a three-byte message against a limit of two, and the
same message against a limit of three. -/
theorem c5_oversize_write_witness :
    (2 < 3 ∧ internalWrite
        ⟨true, true, 2, 1, [], [[9]], [], 0, [], true, true, true, true,
          true⟩ [1, 2, 3] =
      (Except.error Err.oversize,
        ⟨true, true, 2, 1, [], [[9]], [], 0, [], true, true, true, true,
          true⟩)) ∧
    (3 ≤ 3 ∧ (internalWrite
        ⟨true, true, 3, 1, [], [[9]], [], 0, [], true, true, true, true,
          true⟩ [1, 2, 3]).1 = Except.ok ()) :=
  ⟨⟨by norm_num, (c5_oversize_write _ [1, 2, 3]).1 (by norm_num)⟩,
    ⟨by norm_num, (c5_oversize_write _ [1, 2, 3]).2 (by norm_num)⟩⟩

/-- C8: __signalClose clears the active flag, closes _parentOut, _usOut,
_usIn and the socket, leaves the owner-readable _parentIn open, and
touches no other connection field (handshake flag, pipes contents,
buffers and limits are all unchanged). -/
theorem c8_signal_close_frame (s : State) :
    (signalClose s).active = false ∧
    (signalClose s).parentOutOpen = false ∧
    (signalClose s).usOutOpen = false ∧
    (signalClose s).usInOpen = false ∧
    (signalClose s).sockOpen = false ∧
    (signalClose s).parentInOpen = s.parentInOpen ∧
    (signalClose s).inbox = s.inbox ∧
    (signalClose s).outbox = s.outbox ∧
    (signalClose s).handshakeComplete = s.handshakeComplete ∧
    (signalClose s).maxMsgLen = s.maxMsgLen ∧
    (signalClose s).headerLen = s.headerLen ∧
    (signalClose s).iBuffer = s.iBuffer ∧
    (signalClose s).iBufferLen = s.iBufferLen ∧
    (signalClose s).oBuffer = s.oBuffer :=
  ⟨rfl, rfl, rfl, rfl, rfl, rfl, rfl, rfl, rfl, rfl, rfl, rfl, rfl, rfl⟩

/-- C10: _write on the empty message is a silent no-op: the length-zero
guard makes it skip serialization and enqueuing, no error is raised, and
the state is returned unchanged, so the peer never observes anything. -/
theorem c10_empty_write_noop (s : State) :
    internalWrite s [] = (Except.ok (), s) := by
  rw [internalWrite, if_neg (by simp), if_neg (by simp)]

end Connection

end Stockings
